import Mathlib

/-!
Verification of the ASTRA retrieval subsystem.

This file gives a shallow embedding of the retrieval-related code of the
repository (server/services/file.ts, server/services/openai.ts,
server/services/knowledge.ts, server/utils/supabase.ts and the database
schema), and proves or refutes the properties the specification states
about it.  Strings are modelled as lists of characters where character
level reasoning is needed, and as Lean strings elsewhere; JavaScript
numbers holding embedding coordinates are modelled as rationals.
-/

/-- Characters matched by the JavaScript regular-expression class backslash-s
(ASCII whitespace, NEL-free: space, tab, LF, VT, FF, CR, plus NBSP, BOM and
the Unicode space separators). -/
def isJsSpace (c : Char) : Bool :=
  c = ' ' || c = '\t' || c = '\n' || c = '\x0b' || c = '\x0c' || c = '\r' ||
  c.val = 0xA0 || c.val = 0xFEFF ||
  c.val = 0x1680 || (0x2000 ≤ c.val && c.val ≤ 0x200A) ||
  c.val = 0x2028 || c.val = 0x2029 || c.val = 0x202F || c.val = 0x205F ||
  c.val = 0x3000

/-- Largest index m strictly below g such that the list holds a newline at m.
Used to model the backtracking of the greedy quantifier in the paragraph
separator pattern. -/
def lastNewlineLt (rest : List Char) (g : Nat) : Option Nat :=
  ((List.range g).filter (fun m => rest.getD m 'x' == '\n')).getLast?

/-- Length of the match of the paragraph separator pattern (newline,
backslash-s star, newline, as in file.ts line 182) at the head of the list,
with the greedy-then-backtrack semantics of the JavaScript engine; none when
the pattern does not match at the head. -/
def paraSepLen (s : List Char) : Option Nat :=
  match s with
  | '\n' :: rest =>
    let g := (rest.takeWhile isJsSpace).length
    match lastNewlineLt rest g with
    | some m => some (m + 2)
    | none => none
  | _ => none

/-- Worker for the paragraph split: scans left to right, cutting at every
match of the paragraph separator pattern.  The fuel argument is always the
length of the remaining input, so the exhaustion branch is unreachable; it is
present only so that the recursion is structural and reduces in the kernel. -/
def splitParasGo : Nat → List Char → List Char → List (List Char)
  | _, acc, [] => [acc.reverse]
  | 0, acc, s => [acc.reverse ++ s]
  | fuel + 1, acc, c :: rest =>
    match paraSepLen (c :: rest) with
    | some L => acc.reverse :: splitParasGo fuel [] ((c :: rest).drop L)
    | none => splitParasGo fuel (c :: acc) rest

/-- Embeds text.split on the paragraph pattern (file.ts line 182). -/
def splitParas (s : List Char) : List (List Char) :=
  splitParasGo s.length [] s

/-- Sentence-ending punctuation of the lookbehind in file.ts line 194. -/
def isSentencePunct (c : Char) : Bool :=
  c = '.' || c = '!' || c = '?'

/-- Worker for the sentence split (lookbehind on punctuation, then one or
more whitespace characters, file.ts line 194).  The prev argument carries the
character immediately before the scan position for the lookbehind; fuel is as
in splitParasGo. -/
def splitSentencesGo : Nat → Option Char → List Char → List Char → List (List Char)
  | _, _, acc, [] => [acc.reverse]
  | 0, _, acc, s => [acc.reverse ++ s]
  | fuel + 1, prev, acc, c :: rest =>
    if (match prev with | some p => isSentencePunct p | none => false) && isJsSpace c then
      let g := rest.takeWhile isJsSpace
      acc.reverse :: splitSentencesGo fuel (some ((c :: g).getLastD 'x')) [] (rest.drop g.length)
    else
      splitSentencesGo fuel (some c) (c :: acc) rest

/-- Embeds paragraph.split on the sentence pattern (file.ts line 194). -/
def splitSentences (s : List Char) : List (List Char) :=
  splitSentencesGo s.length none [] s

/-- Worker for the fixed-width slicing loop of file.ts lines 205 to 209.
Fuel is the length of the input; when max is zero the JavaScript loop does
not terminate, a case chunkText never reaches because it only slices
sentences longer than max, under the asserted positive max. -/
def chunksOfSizeGo : Nat → Nat → List Char → List (List Char)
  | _, _, [] => []
  | 0, _, s => [s]
  | fuel + 1, max, c :: rest => ((c :: rest).take max) :: chunksOfSizeGo fuel max ((c :: rest).drop max)

/-- Embeds the while loop of file.ts lines 205 to 209: slices of exactly max
characters, the last possibly shorter. -/
def chunksOfSize (max : Nat) (s : List Char) : List (List Char) :=
  chunksOfSizeGo s.length max s

/-- Emission of a nonempty current chunk, as done by the guarded push
statements of file.ts lines 187 to 190 and 198 to 201. -/
def pushCurrent (chunks : List (List Char)) (cur : List Char) : List (List Char) :=
  if cur.length > 0 then chunks ++ [cur] else chunks

/-- One iteration of the sentence loop of file.ts lines 196 to 216, acting on
the state (emitted chunks, current chunk). -/
def sentStep (max : Nat) (st : List (List Char) × List Char) (sent : List Char) :
    List (List Char) × List Char :=
  let chunks := st.1
  let cur := st.2
  if cur.length + sent.length > max then
    if sent.length > max then
      (pushCurrent chunks cur ++ chunksOfSize max sent, [])
    else
      (pushCurrent chunks cur, sent)
  else
    (chunks, cur ++ (if cur.length > 0 then [' '] else []) ++ sent)

/-- One iteration of the paragraph loop of file.ts lines 184 to 225, acting
on the state (emitted chunks, current chunk). -/
def paraStep (max : Nat) (st : List (List Char) × List Char) (para : List Char) :
    List (List Char) × List Char :=
  let chunks := st.1
  let cur := st.2
  if cur.length + para.length > max then
    if para.length > max then
      (splitSentences para).foldl (sentStep max) (pushCurrent chunks cur, [])
    else
      (pushCurrent chunks cur, para)
  else
    (chunks, cur ++ (if cur.length > 0 then ['\n', '\n'] else []) ++ para)

/-- Embeds chunkText (file.ts lines 173 to 233): short or empty input is
returned whole; otherwise the text is split into paragraphs, paragraphs are
accumulated into chunks, oversized paragraphs are split into sentences, and
oversized sentences into fixed-width slices; a trailing nonempty current
chunk is emitted last. -/
def chunkText (text : List Char) (max : Nat) : List (List Char) :=
  if text = [] ∨ text.length ≤ max then [text]
  else
    let st := (splitParas text).foldl (paraStep max) ([], [])
    pushCurrent st.1 st.2

/-- Join a list of character lists with a separator between consecutive
elements. -/
def joinSep (sep : List Char) : List (List Char) → List Char
  | [] => []
  | [x] => x
  | x :: y :: xs => x ++ sep ++ joinSep sep (y :: xs)

/-- Row of the embeddings table (supabase-schema.sql lines 73 to 81, types in
database.types.ts).  The database-assigned UUID is modelled as a natural
number and the creation timestamp as a natural number that grows with
insertion order. -/
structure EmbeddingRecord where
  id : Nat
  user_id : String
  source_type : String
  source_id : String
  content : String
  embedding : List Rat
  created_at : Nat
deriving DecidableEq

/-- Absolute value of a rational, written with a conditional so that
concrete instances evaluate by rewriting. -/
def ratAbs (x : Rat) : Rat :=
  if x < 0 then -x else x

/-- Dot product of two coordinate lists. -/
def dotQ (a b : List Rat) : Rat :=
  (List.zipWith (fun x y => x * y) a b).sum

/-- Sum of squared coordinates, the squared magnitude of a vector. -/
def sqNormQ (v : List Rat) : Rat :=
  (v.map (fun x => x * x)).sum

/-- Sort key standing for the cosine similarity of a stored vector with the
query vector q.  The cosine is d divided by the product of the magnitudes of
the two vectors; since x maps to x times its absolute value strictly
monotonically, comparing cosines of records against one fixed q is the same
as comparing d times the absolute value of d divided by the squared magnitude
of the stored vector (the squared magnitude of q is a common positive
factor), which keeps the key rational and computable. -/
def simKey (q : List Rat) (v : List Rat) : Rat :=
  (dotQ q v) * ratAbs (dotQ q v) / sqNormQ v

/-- Decides whether cosine similarity is at least the bound t, expressed
without square roots: for vectors of positive squared magnitudes na and nq
and dot product d, the cosine is at least t exactly when t times its absolute
value times na times nq is at most d times its absolute value. -/
def simGeBool (t na nq d : Rat) : Bool :=
  decide (t * ratAbs t * (na * nq) ≤ d * ratAbs d)

/-- Ordering of query results: strictly larger similarity first, ties broken
by earlier creation timestamp (the tie-break follows the wording of the
specification, see match_embeddings below). -/
def rankBefore (q : List Rat) (a b : EmbeddingRecord) : Prop :=
  simKey q a.embedding > simKey q b.embedding ∨
    (simKey q a.embedding = simKey q b.embedding ∧ a.created_at ≤ b.created_at)

instance (q : List Rat) : DecidableRel (rankBefore q) := fun a b => by
  unfold rankBefore; exact inferInstance

instance (q : List Rat) : IsTotal EmbeddingRecord (rankBefore q) := by
  constructor
  intro a b
  unfold rankBefore
  rcases lt_trichotomy (simKey q a.embedding) (simKey q b.embedding) with h | h | h
  · exact Or.inr (Or.inl h)
  · rcases Nat.le_total a.created_at b.created_at with h2 | h2
    · exact Or.inl (Or.inr ⟨h, h2⟩)
    · exact Or.inr (Or.inr ⟨h.symm, h2⟩)
  · exact Or.inl (Or.inl h)

instance (q : List Rat) : IsTrans EmbeddingRecord (rankBefore q) := by
  constructor
  intro a b c hab hbc
  unfold rankBefore at hab hbc ⊢
  rcases hab with hab | ⟨hab, hab2⟩ <;> rcases hbc with hbc | ⟨hbc, hbc2⟩
  · exact Or.inl (lt_trans hbc hab)
  · exact Or.inl (hbc ▸ hab)
  · exact Or.inl (hab ▸ hbc)
  · exact Or.inr ⟨hab.trans hbc, le_trans hab2 hbc2⟩

/-- Predicate of the modelled match_embeddings function: the record belongs
to the queried user and its cosine similarity with the query vector reaches
the threshold. -/
def scopeMatch (uid : String) (q : List Rat) (t : Rat) (r : EmbeddingRecord) : Bool :=
  r.user_id == uid &&
    simGeBool t (sqNormQ r.embedding) (sqNormQ q) (dotQ q r.embedding)

/-- Modelled from the spec: the body of the match_embeddings SQL function is
not in src (only its argument and result types in database.types.ts lines
774 to 789 and its caller in file.ts lines 446 to 459 are).  Per the
specification it returns the records of the given user whose cosine
similarity with the query embedding reaches the threshold, at most
match_count of them, ordered by similarity descending with ties broken by
earlier creation time; similarity is the dot product divided by the product
of magnitudes.  Records of other users are excluded, as the row-level
security policy embeddings_policy (supabase-schema.sql lines 176 to 179)
also enforces. -/
def match_embeddings (st : List EmbeddingRecord) (query_embedding : List Rat)
    (match_threshold : Rat) (match_count : Nat) (user_id : String) :
    List EmbeddingRecord :=
  (List.insertionSort (rankBefore query_embedding)
      (st.filter (scopeMatch user_id query_embedding match_threshold))).take match_count

/-- Embeds searchEmbeddings (file.ts lines 446 to 459): calls the
match_embeddings function with the caller supplied embedding and limit, the
authenticated user id, and a threshold fixed at 0.7. -/
def searchEmbeddings (st : List EmbeddingRecord) (uid : String)
    (embedding : List Rat) (limit : Nat) : List EmbeddingRecord :=
  match_embeddings st embedding (7 / 10) limit uid

/-- Modelled from the spec: the query operation the claim describes, with a
caller-supplied minSimilarity bound in place of the fixed threshold.  Used
to compare the code against the specified signature. -/
def querySpec (st : List EmbeddingRecord) (ownerScope : String)
    (queryVector : List Rat) (k : Nat) (minSimilarity : Rat) :
    List EmbeddingRecord :=
  (List.insertionSort (rankBefore queryVector)
      (st.filter (scopeMatch ownerScope queryVector minSimilarity))).take k

/-- Embeds the successful insert of saveEmbedding (file.ts lines 427 to
444): a row carrying the authenticated user id and the given source type,
source id, content and embedding is appended and returned.  The database
assigned id and created_at default are modelled by the current row count.
The error path of the insert — the vector(1536) dimension constraint of the
embeddings table, rethrown at file.ts line 442 — is modelled by
saveEmbeddingChecked below. -/
def saveEmbedding (st : List EmbeddingRecord) (uid source_type source_id content : String)
    (embedding : List Rat) : EmbeddingRecord × List EmbeddingRecord :=
  let r : EmbeddingRecord :=
    { id := st.length, user_id := uid, source_type := source_type,
      source_id := source_id, content := content, embedding := embedding,
      created_at := st.length }
  (r, st ++ [r])

/-- Failure of the database insert: the embeddings table declares the
column embedding as vector(1536) (supabase-schema.sql line 79), so the
database rejects an insert whose vector length is not 1536. -/
inductive InsertErr where
  | dimensionMismatch : InsertErr
deriving DecidableEq

/-- Embeds saveEmbedding (file.ts lines 427 to 444) together with the error
path of its insert: a vector whose length is not 1536 fails the vector(1536)
column constraint of the schema and saveEmbedding throws the database error
(file.ts line 442) with no row inserted; a vector of length 1536 — its
values unexamined, all zeros included — is inserted and returned. -/
def saveEmbeddingChecked (st : List EmbeddingRecord)
    (uid source_type source_id content : String) (embedding : List Rat) :
    Except InsertErr (EmbeddingRecord × List EmbeddingRecord) :=
  if embedding.length = 1536 then
    Except.ok (saveEmbedding st uid source_type source_id content embedding)
  else
    Except.error InsertErr.dimensionMismatch

/-- Failure modes of the embedding provider named by the specification. -/
inductive EmbedErr where
  | providerUnavailable : EmbedErr
  | providerRejected : EmbedErr
deriving DecidableEq

/-- Embeds generateEmbedding (openai.ts lines 36 to 48): one call to the
provider (attempt number zero); on failure the error is logged and rethrown
unchanged.  The provider is a function from attempt number to outcome so
that the absence of a retry loop is observable. -/
def generateEmbedding (provider : Nat → Except EmbedErr (List Rat)) :
    Except EmbedErr (List Rat) :=
  match provider 0 with
  | Except.ok v => Except.ok v
  | Except.error e => Except.error e

/-- Modelled from the spec: the retry policy the claim describes — transient
providerUnavailable outcomes retried with bounded backoff up to the given
number of attempts (the backoff delay has no observable effect here),
providerRejected surfaced immediately without retry. -/
def retryEmbeddingSpec (provider : Nat → Except EmbedErr (List Rat)) :
    Nat → Nat → Except EmbedErr (List Rat)
  | 0, _ => Except.error EmbedErr.providerUnavailable
  | fuel + 1, attempt =>
    match provider attempt with
    | Except.ok v => Except.ok v
    | Except.error EmbedErr.providerRejected => Except.error EmbedErr.providerRejected
    | Except.error EmbedErr.providerUnavailable =>
      retryEmbeddingSpec provider fuel (attempt + 1)

/-- Embeds the chunk loop of processFile (file.ts lines 64 to 108): for each
chunk in order, generate its embedding and save it with source type file and
the file record id; any provider error escapes the surrounding try block and
aborts the whole operation, so no later chunk is processed and no failure
report is produced.  File storage, summarization, knowledge extraction and
event logging are outside the loop state modelled here. -/
def processFileChunks (provider : String → Except EmbedErr (List Rat))
    (st : List EmbeddingRecord) (uid fileId : String) :
    List String → Except EmbedErr (List EmbeddingRecord)
  | [] => Except.ok st
  | c :: rest =>
    match provider c with
    | Except.error e => Except.error e
    | Except.ok emb =>
      processFileChunks provider (saveEmbedding st uid "file" fileId c emb).2 uid fileId rest

/-- Modelled from the spec: the ingest behaviour the claim describes — a
chunk the provider rejects is skipped and reported by ordinal while later
chunks continue; an unavailable provider aborts the remainder.  Worker
carrying the ordinal of the next chunk. -/
def ingestSpecGo (provider : String → Except EmbedErr (List Rat))
    (st : List EmbeddingRecord) (uid fileId : String) (i : Nat) :
    List String → List EmbeddingRecord × List Nat
  | [] => (st, [])
  | c :: rest =>
    match provider c with
    | Except.error EmbedErr.providerRejected =>
      let res := ingestSpecGo provider st uid fileId (i + 1) rest
      (res.1, i :: res.2)
    | Except.error EmbedErr.providerUnavailable => (st, [i])
    | Except.ok emb =>
      ingestSpecGo provider (saveEmbedding st uid "file" fileId c emb).2 uid fileId (i + 1) rest

/-- Modelled from the spec: ingest returning the stored records together
with the list of failed ordinals. -/
def ingestSpec (provider : String → Except EmbedErr (List Rat))
    (st : List EmbeddingRecord) (uid fileId : String) (chunks : List String) :
    List EmbeddingRecord × List Nat :=
  ingestSpecGo provider st uid fileId 0 chunks

/-- Formatting of one search result inside getRelevantContext (openai.ts
line 120).  The rendering of the similarity number (toFixed on a floating
point value) is not shallowly embeddable and is abstracted as simText. -/
def formatResult (simText : EmbeddingRecord → String) (r : EmbeddingRecord) : String :=
  "[Source: " ++ r.source_type ++ "/" ++ r.source_id ++ ", Relevance: " ++
    simText r ++ "]\n" ++ r.content

/-- Embeds getRelevantContext (openai.ts lines 109 to 129): the outcome of
the single query embedding call is passed in; on any error the catch block
returns the empty string, otherwise the top five search results are compiled
into a context string, or the empty string when there are none. -/
def getRelevantContext (simText : EmbeddingRecord → String)
    (embRes : Except EmbedErr (List Rat)) (st : List EmbeddingRecord)
    (uid : String) : String :=
  match embRes with
  | Except.error _ => ""
  | Except.ok q =>
    let searchResults := searchEmbeddings st uid q 5
    if searchResults.length > 0 then
      String.intercalate "\n\n" (searchResults.map (formatResult simText))
    else ""

/-- Modelled from the spec: the context retrieval the claim describes — if
the single embedding call for the query fails, the whole operation fails
with that error surfaced to the caller. -/
def retrieveContextSpec (simText : EmbeddingRecord → String)
    (embRes : Except EmbedErr (List Rat)) (st : List EmbeddingRecord)
    (uid : String) : Except EmbedErr String :=
  match embRes with
  | Except.error e => Except.error e
  | Except.ok q =>
    let searchResults := searchEmbeddings st uid q 5
    Except.ok (if searchResults.length > 0 then
      String.intercalate "\n\n" (searchResults.map (formatResult simText))
    else "")

/-- Row of the knowledge_nodes table as fetched by getKnowledgeNodes, with
the fields the relationship loop reads. -/
structure KnowledgeNode where
  id : Nat
  ntype : String
  name : String
deriving DecidableEq

/-- Relationship extracted from text (interface Relationship,
knowledge.ts lines 23 to 27). -/
structure KRelationship where
  source : String
  target : String
  rtype : String
deriving DecidableEq

/-- Lower-casing of a name as done by toLowerCase in knowledge.ts lines 87
and 91 (ASCII-faithful). -/
def lowerName (s : String) : String :=
  String.mk (s.data.map Char.toLower)

/-- Embeds the relationship loop of processTextForKnowledge (knowledge.ts
lines 84 to 119): for each extracted relationship, the nodes whose
lower-cased name equals the lower-cased source or target name are collected
from the fetched node list; when either collection is empty the relationship
is skipped with only a console warning; otherwise the first node of each
collection is linked.  Returns the created links in order. -/
def linkRelationships (nodes : List KnowledgeNode) :
    List KRelationship → List (KnowledgeNode × KnowledgeNode × KRelationship)
  | [] => []
  | r :: rest =>
    let sourceNodes := nodes.filter (fun n => lowerName n.name == lowerName r.source)
    let targetNodes := nodes.filter (fun n => lowerName n.name == lowerName r.target)
    match sourceNodes, targetNodes with
    | s :: _, t :: _ => (s, t, r) :: linkRelationships nodes rest
    | _, _ => linkRelationships nodes rest

/-- Concrete record for the concrete instances below: owned by user u, with
cosine similarity to the query vector (1, 0) equal to one over the square
root of five, which is at least zero but below 0.7. -/
def rCex : EmbeddingRecord :=
  { id := 0, user_id := "u", source_type := "file", source_id := "s",
    content := "c", embedding := [1, 2], created_at := 0 }

/-- Concrete record for the concrete instances below: owned by user u, with
cosine similarity one to the query vector (1, 0). -/
def rTop : EmbeddingRecord :=
  { id := 0, user_id := "u", source_type := "file", source_id := "s",
    content := "c0", embedding := [1, 0], created_at := 0 }

/-- Concrete record for the concrete instances below: owned by user u, with
cosine similarity two over the square root of five to the query vector
(1, 0), above 0.7 but below the similarity of rTop. -/
def rSecond : EmbeddingRecord :=
  { id := 1, user_id := "u", source_type := "file", source_id := "s",
    content := "c1", embedding := [2, 1], created_at := 1 }

/-- Concrete provider for the concrete instances below: rejects exactly the
chunk named c2 and embeds every other chunk. -/
def rejProvider (c : String) : Except EmbedErr (List Rat) :=
  if c = "c2" then Except.error EmbedErr.providerRejected else Except.ok [1]

/-- Concrete provider for the concrete instances below: unavailable on the
first attempt, successful on every retry. -/
def flakyProvider (n : Nat) : Except EmbedErr (List Rat) :=
  if n = 0 then Except.error EmbedErr.providerUnavailable else Except.ok [1]

theorem chunksOfSizeGo_length_le (max : Nat) (hmax : 0 < max) :
    ∀ fuel s, s.length ≤ fuel → ∀ c ∈ chunksOfSizeGo fuel max s, c.length ≤ max := by
  intro fuel
  induction fuel with
  | zero =>
    intro s hs c hc
    cases s with
    | nil => simp [chunksOfSizeGo] at hc
    | cons a t => simp at hs
  | succ n ih =>
    intro s hs c hc
    cases s with
    | nil => simp [chunksOfSizeGo] at hc
    | cons a t =>
      simp only [chunksOfSizeGo, List.mem_cons] at hc
      rcases hc with hc | hc
      · subst hc
        exact List.length_take_le max (a :: t)
      · refine ih _ ?_ c hc
        simp at hs ⊢
        omega

theorem chunksOfSize_length_le (max : Nat) (hmax : 0 < max) (s : List Char) :
    ∀ c ∈ chunksOfSize max s, c.length ≤ max :=
  chunksOfSizeGo_length_le max hmax s.length s (le_refl _)

theorem pushCurrent_le (max : Nat) (chunks : List (List Char)) (cur : List Char)
    (h1 : ∀ c ∈ chunks, c.length ≤ max + 2) (h2 : cur.length ≤ max + 2) :
    ∀ c ∈ pushCurrent chunks cur, c.length ≤ max + 2 := by
  intro c hc
  unfold pushCurrent at hc
  split_ifs at hc
  · rcases List.mem_append.mp hc with hc | hc
    · exact h1 c hc
    · rw [List.mem_singleton] at hc
      subst hc
      exact h2
  · exact h1 c hc

theorem sentStep_inv (max : Nat) (hmax : 0 < max) (st : List (List Char) × List Char)
    (sent : List Char)
    (h1 : ∀ c ∈ st.1, c.length ≤ max + 2) (h2 : st.2.length ≤ max + 2) :
    (∀ c ∈ (sentStep max st sent).1, c.length ≤ max + 2) ∧
      (sentStep max st sent).2.length ≤ max + 2 := by
  obtain ⟨chunks, cur⟩ := st
  dsimp only at h1 h2
  have hpush := pushCurrent_le max chunks cur h1 h2
  simp only [sentStep]
  by_cases hover : cur.length + sent.length > max
  · rw [if_pos hover]
    by_cases hbig : sent.length > max
    · rw [if_pos hbig]
      refine ⟨?_, by simp⟩
      intro c hc
      rcases List.mem_append.mp hc with hc | hc
      · exact hpush c hc
      · have := chunksOfSize_length_le max hmax sent c hc
        omega
    · rw [if_neg hbig]
      exact ⟨hpush, by dsimp only; omega⟩
  · rw [if_neg hover]
    refine ⟨h1, ?_⟩
    dsimp only
    rw [Nat.not_lt] at hover
    simp only [List.length_append]
    split_ifs
    · simp only [List.length_singleton]
      omega
    · simp only [List.length_nil]
      omega

theorem sentFold_inv (max : Nat) (hmax : 0 < max) :
    ∀ (sents : List (List Char)) (st : List (List Char) × List Char),
      (∀ c ∈ st.1, c.length ≤ max + 2) → st.2.length ≤ max + 2 →
      (∀ c ∈ (sents.foldl (sentStep max) st).1, c.length ≤ max + 2) ∧
        (sents.foldl (sentStep max) st).2.length ≤ max + 2 := by
  intro sents
  induction sents with
  | nil => intro st h1 h2; exact ⟨h1, h2⟩
  | cons s rest ih =>
    intro st h1 h2
    have h := sentStep_inv max hmax st s h1 h2
    exact ih (sentStep max st s) h.1 h.2

theorem paraStep_inv (max : Nat) (hmax : 0 < max) (st : List (List Char) × List Char)
    (para : List Char)
    (h1 : ∀ c ∈ st.1, c.length ≤ max + 2) (h2 : st.2.length ≤ max + 2) :
    (∀ c ∈ (paraStep max st para).1, c.length ≤ max + 2) ∧
      (paraStep max st para).2.length ≤ max + 2 := by
  obtain ⟨chunks, cur⟩ := st
  dsimp only at h1 h2
  have hpush := pushCurrent_le max chunks cur h1 h2
  simp only [paraStep]
  by_cases hover : cur.length + para.length > max
  · rw [if_pos hover]
    by_cases hbig : para.length > max
    · rw [if_pos hbig]
      exact sentFold_inv max hmax (splitSentences para) (pushCurrent chunks cur, []) hpush (by simp)
    · rw [if_neg hbig]
      exact ⟨hpush, by dsimp only; omega⟩
  · rw [if_neg hover]
    refine ⟨h1, ?_⟩
    dsimp only
    rw [Nat.not_lt] at hover
    simp only [List.length_append]
    split_ifs
    · simp only [List.length_cons, List.length_nil, List.length_singleton]
      omega
    · simp only [List.length_nil]
      omega

theorem paraFold_inv (max : Nat) (hmax : 0 < max) :
    ∀ (paras : List (List Char)) (st : List (List Char) × List Char),
      (∀ c ∈ st.1, c.length ≤ max + 2) → st.2.length ≤ max + 2 →
      (∀ c ∈ (paras.foldl (paraStep max) st).1, c.length ≤ max + 2) ∧
        (paras.foldl (paraStep max) st).2.length ≤ max + 2 := by
  intro paras
  induction paras with
  | nil => intro st h1 h2; exact ⟨h1, h2⟩
  | cons p rest ih =>
    intro st h1 h2
    have h := paraStep_inv max hmax st p h1 h2
    exact ih (paraStep max st p) h.1 h.2

/-- C2 amended: every chunk returned by chunkText has length at most
maxChunkSize plus two; the slack of two characters comes from the paragraph
join separator, which the overflow check of file.ts line 186 does not count
(the sentence join separator likewise adds one). -/
theorem chunkText_length_le (text : List Char) (max : Nat) (hmax : 0 < max) :
    ∀ c ∈ chunkText text max, c.length ≤ max + 2 := by
  unfold chunkText
  by_cases h : text = [] ∨ text.length ≤ max
  · rw [if_pos h]
    intro c hc
    rw [List.mem_singleton] at hc
    subst hc
    rcases h with h | h
    · simp [h]
    · omega
  · rw [if_neg h]
    have hinv := paraFold_inv max hmax (splitParas text) ([], []) (by simp) (by simp)
    exact pushCurrent_le max _ _ hinv.1 hinv.2

/-- C2 counterexample: chunkText can return a chunk longer than
maxChunkSize; on the six character input aa, blank line, bb with
maxChunkSize four the single returned chunk has length six. -/
theorem chunkText_length_cex :
    ¬ ∀ c ∈ chunkText ['a', 'a', '\n', '\n', 'b', 'b'] 4, c.length ≤ 4 := by
  decide

/-- Witness instantiating chunkText_length_le on a concrete input. -/
theorem chunkText_length_le_witness :
    (['a', 'a', '\n', '\n', 'b', 'b'] : List Char) ∈ chunkText ['a', 'a', '\n', '\n', 'b', 'b'] 4 ∧
      (['a', 'a', '\n', '\n', 'b', 'b'] : List Char).length ≤ 4 + 2 :=
  ⟨by decide, chunkText_length_le ['a', 'a', '\n', '\n', 'b', 'b'] 4 (by decide)
    ['a', 'a', '\n', '\n', 'b', 'b'] (by decide)⟩

theorem joinSep_cons_ne (sep x : List Char) (l : List (List Char)) (h : l ≠ []) :
    joinSep sep (x :: l) = x ++ sep ++ joinSep sep l := by
  cases l with
  | nil => exact absurd rfl h
  | cons y ys => rfl

theorem joinSep_append_singleton (sep : List Char) :
    ∀ l : List (List Char), l ≠ [] → ∀ x, joinSep sep (l ++ [x]) = joinSep sep l ++ sep ++ x := by
  intro l
  induction l with
  | nil => intro h; exact absurd rfl h
  | cons y ys ih =>
    intro _ x
    cases ys with
    | nil => simp [joinSep, List.append_assoc]
    | cons z zs =>
      rw [List.cons_append, joinSep_cons_ne sep y ((z :: zs) ++ [x]) (by simp),
        joinSep_cons_ne sep y (z :: zs) (by simp), ih (by simp) x]
      simp [List.append_assoc]

theorem joinSep_snoc_append (sep : List Char) :
    ∀ (l : List (List Char)) (x z : List Char),
      joinSep sep (l ++ [x ++ z]) = joinSep sep (l ++ [x]) ++ z := by
  intro l
  induction l with
  | nil => intro x z; rfl
  | cons y ys ih =>
    intro x z
    rw [List.cons_append, List.cons_append,
      joinSep_cons_ne sep y (ys ++ [x ++ z]) (by simp),
      joinSep_cons_ne sep y (ys ++ [x]) (by simp), ih x z]
    simp [List.append_assoc]

theorem joinSep_head (sep : List Char) :
    ∀ (ps : List (List Char)) (p : List Char),
      joinSep sep (p :: ps) = p ++ (ps.map (fun x => sep ++ x)).flatten := by
  intro ps
  induction ps with
  | nil => intro p; simp [joinSep]
  | cons q qs ih =>
    intro p
    rw [joinSep_cons_ne sep p (q :: qs) (by simp), ih q]
    simp [List.append_assoc]

theorem paraFold_join (max : Nat) :
    ∀ (ps : List (List Char)) (chunks : List (List Char)) (cur : List Char),
      cur ≠ [] → (∀ p ∈ ps, p ≠ []) → (∀ p ∈ ps, p.length ≤ max) →
      (ps.foldl (paraStep max) (chunks, cur)).2 ≠ [] ∧
        joinSep ['\n', '\n'] ((ps.foldl (paraStep max) (chunks, cur)).1 ++
            [(ps.foldl (paraStep max) (chunks, cur)).2]) =
          joinSep ['\n', '\n'] (chunks ++ [cur]) ++
            (ps.map (fun p => ['\n', '\n'] ++ p)).flatten := by
  intro ps
  induction ps with
  | nil =>
    intro chunks cur hcur _ _
    exact ⟨hcur, by simp⟩
  | cons q rest ih =>
    intro chunks cur hcur hne hlen
    have hq : q ≠ [] := hne q (by simp)
    have hqlen : q.length ≤ max := hlen q (by simp)
    have hcurpos : cur.length > 0 := List.length_pos.mpr hcur
    simp only [List.foldl_cons]
    have hstep : paraStep max (chunks, cur) q =
        if cur.length + q.length > max then (chunks ++ [cur], q)
        else (chunks, cur ++ ['\n', '\n'] ++ q) := by
      simp only [paraStep, pushCurrent]
      by_cases hover : cur.length + q.length > max
      · rw [if_pos hover, if_pos hover, if_neg (by omega), if_pos hcurpos]
      · rw [if_neg hover, if_neg hover, if_pos hcurpos]
    rw [hstep]
    by_cases hover : cur.length + q.length > max
    · rw [if_pos hover]
      have h := ih (chunks ++ [cur]) q hq
        (fun p hp => hne p (by simp [hp])) (fun p hp => hlen p (by simp [hp]))
      refine ⟨h.1, ?_⟩
      rw [h.2, joinSep_append_singleton ['\n', '\n'] (chunks ++ [cur]) (by simp) q]
      simp [List.append_assoc]
    · rw [if_neg hover]
      have h := ih chunks (cur ++ ['\n', '\n'] ++ q) (by simp [hq])
        (fun p hp => hne p (by simp [hp])) (fun p hp => hlen p (by simp [hp]))
      refine ⟨h.1, ?_⟩
      rw [h.2, List.append_assoc cur ['\n', '\n'] q, joinSep_snoc_append ['\n', '\n'] chunks cur (['\n', '\n'] ++ q)]
      simp [List.append_assoc]

/-- C3 amended: when every paragraph boundary in the text is exactly one
blank line (two newline characters) and every paragraph is nonempty and fits
within maxChunkSize, joining the chunks returned by chunkText with the
two-newline separator reconstructs the text exactly. -/
theorem chunkText_join_eq (text : List Char) (max : Nat) (hmax : 0 < max)
    (hjoin : joinSep ['\n', '\n'] (splitParas text) = text)
    (hne : ∀ p ∈ splitParas text, p ≠ [])
    (hlen : ∀ p ∈ splitParas text, p.length ≤ max) :
    joinSep ['\n', '\n'] (chunkText text max) = text := by
  unfold chunkText
  by_cases h : text = [] ∨ text.length ≤ max
  · rw [if_pos h]; rfl
  · rw [if_neg h]
    push_neg at h
    obtain ⟨htne, hlt⟩ := h
    cases hps : splitParas text with
    | nil =>
      rw [hps] at hjoin
      exact absurd hjoin.symm htne
    | cons p rest =>
      rw [hps] at hjoin hne hlen
      have hp : p ≠ [] := hne p (by simp)
      have hplen : p.length ≤ max := hlen p (by simp)
      dsimp only
      simp only [List.foldl_cons]
      have hfirst : paraStep max ([], []) p = ([], p) := by
        simp only [paraStep, pushCurrent]
        rw [if_neg (by simp; omega)]
        simp
      rw [hfirst]
      have h := paraFold_join max rest [] p hp
        (fun x hx => hne x (by simp [hx])) (fun x hx => hlen x (by simp [hx]))
      have hres : pushCurrent (rest.foldl (paraStep max) ([], p)).1
          (rest.foldl (paraStep max) ([], p)).2 =
          (rest.foldl (paraStep max) ([], p)).1 ++ [(rest.foldl (paraStep max) ([], p)).2] := by
        unfold pushCurrent
        rw [if_pos (List.length_pos.mpr h.1)]
      rw [hres, h.2]
      rw [← hjoin, joinSep_head ['\n', '\n'] rest p]
      simp [joinSep]

/-- C3 counterexample: for the input aaa, newline, space, newline, bbb with
maxChunkSize four, chunkText returns the two chunks aaa and bbb, and no join
of them with the internal separators of the code (the two-newline paragraph
join, the single-space sentence join, or plain concatenation) reconstructs
the original text. -/
theorem chunkText_join_cex :
    chunkText ['a', 'a', 'a', '\n', ' ', '\n', 'b', 'b', 'b'] 4 =
        [['a', 'a', 'a'], ['b', 'b', 'b']] ∧
      joinSep ['\n', '\n'] (chunkText ['a', 'a', 'a', '\n', ' ', '\n', 'b', 'b', 'b'] 4) ≠
        ['a', 'a', 'a', '\n', ' ', '\n', 'b', 'b', 'b'] ∧
      joinSep [' '] (chunkText ['a', 'a', 'a', '\n', ' ', '\n', 'b', 'b', 'b'] 4) ≠
        ['a', 'a', 'a', '\n', ' ', '\n', 'b', 'b', 'b'] ∧
      joinSep [] (chunkText ['a', 'a', 'a', '\n', ' ', '\n', 'b', 'b', 'b'] 4) ≠
        ['a', 'a', 'a', '\n', ' ', '\n', 'b', 'b', 'b'] := by
  refine ⟨by decide, by decide, by decide, by decide⟩

/-- Witness instantiating chunkText_join_eq on a concrete input. -/
theorem chunkText_join_eq_witness :
    joinSep ['\n', '\n'] (chunkText ['a', 'a', 'a', 'a', '\n', '\n', 'b', 'b', 'b', 'b'] 4) =
      ['a', 'a', 'a', 'a', '\n', '\n', 'b', 'b', 'b', 'b'] :=
  chunkText_join_eq ['a', 'a', 'a', 'a', '\n', '\n', 'b', 'b', 'b', 'b'] 4
    (by decide) (by decide) (by decide) (by decide)

theorem rCex_low : scopeMatch "u" [1, 0] (7 / 10) rCex = false := by
  simp [scopeMatch, simGeBool, sqNormQ, dotQ, ratAbs, rCex]
  norm_num

theorem rCex_zero : scopeMatch "u" [1, 0] 0 rCex = true := by
  simp [scopeMatch, simGeBool, sqNormQ, dotQ, ratAbs, rCex]
  norm_num

theorem rTop_match : scopeMatch "u" [1, 0] (7 / 10) rTop = true := by
  simp [scopeMatch, simGeBool, sqNormQ, dotQ, ratAbs, rTop]
  norm_num

theorem rSecond_match : scopeMatch "u" [1, 0] (7 / 10) rSecond = true := by
  simp [scopeMatch, simGeBool, sqNormQ, dotQ, ratAbs, rSecond]
  norm_num

theorem rTop_rankBefore : rankBefore [1, 0] rTop rSecond := by
  left
  norm_num [simKey, dotQ, sqNormQ, ratAbs, rTop, rSecond]

theorem searchTwoEval : searchEmbeddings [rTop, rSecond] "u" [1, 0] 1 = [rTop] := by
  unfold searchEmbeddings match_embeddings
  rw [List.filter_cons_of_pos rTop_match, List.filter_cons_of_pos rSecond_match]
  simp [List.insertionSort, List.orderedInsert, if_pos rTop_rankBefore]

/-- C8: an input no longer than maxChunkSize is returned unchanged as the
single chunk, the empty input included (file.ts lines 174 to 176), and
chunking is total, so no error is possible. -/
theorem chunkText_short_id (text : List Char) (max : Nat) (h : text.length ≤ max) :
    chunkText text max = [text] := by
  unfold chunkText
  rw [if_pos (Or.inr h)]

/-- Witness instantiating chunkText_short_id on a two character input and on
the empty input. -/
theorem chunkText_short_id_witness :
    chunkText ['a', 'b'] 5 = [['a', 'b']] ∧ chunkText [] 5 = [[]] :=
  ⟨chunkText_short_id ['a', 'b'] 5 (by decide), chunkText_short_id [] 5 (by decide)⟩

theorem mem_match_embeddings {st : List EmbeddingRecord} {q : List Rat} {t : Rat}
    {k : Nat} {uid : String} {r : EmbeddingRecord}
    (h : r ∈ match_embeddings st q t k uid) :
    r ∈ st ∧ r.user_id = uid ∧
      simGeBool t (sqNormQ r.embedding) (sqNormQ q) (dotQ q r.embedding) = true := by
  unfold match_embeddings at h
  have h1 : r ∈ List.insertionSort (rankBefore q) (st.filter (scopeMatch uid q t)) :=
    List.mem_of_mem_take h
  rw [List.mem_insertionSort] at h1
  have h2 := List.mem_filter.mp h1
  have h3 := h2.2
  unfold scopeMatch at h3
  rw [Bool.and_eq_true] at h3
  exact ⟨h2.1, by simpa using h3.1, h3.2⟩

/-- C1: scope isolation.  A record saved through saveEmbedding under the
user id of scope A is never contained in the result of searchEmbeddings
issued under a different user id B, for every store, query vector and
result limit: the search only ever returns rows whose user_id equals the
id of the caller. -/
theorem saveEmbedding_scope_isolation (st : List EmbeddingRecord)
    (A B stype sid content : String) (emb q : List Rat) (k : Nat) (hAB : A ≠ B) :
    (saveEmbedding st A stype sid content emb).1 ∉
      searchEmbeddings (saveEmbedding st A stype sid content emb).2 B q k := by
  intro hmem
  unfold searchEmbeddings at hmem
  have h := (mem_match_embeddings hmem).2.1
  unfold saveEmbedding at h
  exact hAB h

/-- Witness instantiating saveEmbedding_scope_isolation on concrete scopes
a and b. -/
theorem saveEmbedding_scope_isolation_witness :
    (saveEmbedding [] "a" "file" "s" "c" [1, 0]).1 ∉
      searchEmbeddings (saveEmbedding [] "a" "file" "s" "c" [1, 0]).2 "b" [1, 0] 5 :=
  saveEmbedding_scope_isolation [] "a" "b" "file" "s" "c" [1, 0] [1, 0] 5 (by decide)

/-- C4 amended: the query contract of searchEmbeddings with the threshold
fixed at 0.7 instead of a caller-supplied minSimilarity.  The result has
exactly min of k and the number of matching records, contains only records
of the store that belong to the caller and reach similarity 0.7, is ordered
by similarity descending with ties broken by earlier creation time, and is a
top-k selection: any matching record left out ranks no higher than every
returned one. -/
theorem searchEmbeddings_query_contract (st : List EmbeddingRecord) (uid : String)
    (q : List Rat) (k : Nat) :
    (searchEmbeddings st uid q k).length =
        min k (st.filter (scopeMatch uid q (7 / 10))).length ∧
      (∀ r ∈ searchEmbeddings st uid q k, r ∈ st ∧ r.user_id = uid ∧
        simGeBool (7 / 10) (sqNormQ r.embedding) (sqNormQ q) (dotQ q r.embedding) = true) ∧
      List.Sorted (rankBefore q) (searchEmbeddings st uid q k) ∧
      (∀ r ∈ st, scopeMatch uid q (7 / 10) r = true →
        r ∉ searchEmbeddings st uid q k →
        ∀ s ∈ searchEmbeddings st uid q k, rankBefore q s r) := by
  refine ⟨?_, ?_, ?_, ?_⟩
  · unfold searchEmbeddings match_embeddings
    rw [List.length_take, (List.perm_insertionSort (rankBefore q) _).length_eq]
  · intro r hr
    exact mem_match_embeddings hr
  · unfold searchEmbeddings match_embeddings
    exact List.Pairwise.sublist (List.take_sublist _ _)
      (List.sorted_insertionSort (rankBefore q) _)
  · intro r hrst hmatch hnotmem s hs
    unfold searchEmbeddings match_embeddings at hnotmem hs
    have hrsort : r ∈ List.insertionSort (rankBefore q) (st.filter (scopeMatch uid q (7 / 10))) := by
      rw [List.mem_insertionSort]
      exact List.mem_filter.mpr ⟨hrst, hmatch⟩
    have hrdrop : r ∈ List.drop k
        (List.insertionSort (rankBefore q) (st.filter (scopeMatch uid q (7 / 10)))) := by
      rw [← List.take_append_drop k
        (List.insertionSort (rankBefore q) (st.filter (scopeMatch uid q (7 / 10))))] at hrsort
      rcases List.mem_append.mp hrsort with h | h
      · exact absurd h hnotmem
      · exact h
    exact (List.sorted_insertionSort (rankBefore q) _).rel_of_mem_take_of_mem_drop hs hrdrop

/-- C4 counterexample: searchEmbeddings takes no minSimilarity parameter;
its threshold is fixed at 0.7 (file.ts line 452).  On a store holding one
record of the caller with cosine similarity below 0.7 but at least 0, the
code returns nothing while the specified query with caller-supplied
minSimilarity 0 returns the record. -/
theorem searchEmbeddings_query_cex :
    searchEmbeddings [rCex] "u" [1, 0] 5 ≠ querySpec [rCex] "u" [1, 0] 5 0 := by
  have h1 : searchEmbeddings [rCex] "u" [1, 0] 5 = [] := by
    unfold searchEmbeddings match_embeddings
    rw [List.filter_cons_of_neg (by simp [rCex_low])]
    simp [List.insertionSort]
  have h2 : querySpec [rCex] "u" [1, 0] 5 0 = [rCex] := by
    unfold querySpec
    rw [List.filter_cons_of_pos rCex_zero]
    simp [List.insertionSort, List.orderedInsert]
  rw [h1, h2]
  simp

/-- Witness instantiating searchEmbeddings_query_contract: on a concrete
two-record store with limit one, the excluded matching record ranks below
the returned one. -/
theorem searchEmbeddings_query_contract_witness :
    rankBefore [1, 0] rTop rSecond :=
  (searchEmbeddings_query_contract [rTop, rSecond] "u" [1, 0] 1).2.2.2
    rSecond (by simp) rSecond_match
    (by rw [searchTwoEval]; simp [rTop, rSecond])
    rTop (by rw [searchTwoEval]; simp)

/-- C5 amended: processFile does not skip a rejected chunk and does not
report failed ordinals; when the provider fails on some chunk (all earlier
chunks succeeding), the whole chunk loop aborts with that error, later
chunks are not processed, and no partial-failure report exists — the error
is rethrown by the catch block of file.ts lines 105 to 108. -/
theorem processFileChunks_aborts (provider : String → Except EmbedErr (List Rat))
    (st : List EmbeddingRecord) (uid fid : String) (pre : List String)
    (c : String) (post : List String) (e : EmbedErr)
    (hpre : ∀ p ∈ pre, ∃ v, provider p = Except.ok v)
    (hc : provider c = Except.error e) :
    processFileChunks provider st uid fid (pre ++ c :: post) = Except.error e := by
  induction pre generalizing st with
  | nil =>
    simp only [List.nil_append, processFileChunks, hc]
  | cons p ps ih =>
    obtain ⟨v, hv⟩ := hpre p (by simp)
    rw [List.cons_append]
    simp only [processFileChunks, hv]
    exact ih _ (fun x hx => hpre x (by simp [hx]))

/-- C5 counterexample: on the five-chunk document c0 to c4 with a provider
rejecting exactly ordinal 2, the chunk loop of processFile returns the
provider error instead of records for ordinals 0, 1, 3, 4 with failed
ordinal list consisting of 2, which is what the specified ingest (modelled
as ingestSpec) produces. -/
theorem processFileChunks_partial_cex :
    processFileChunks rejProvider [] "u" "f" ["c0", "c1", "c2", "c3", "c4"] =
        Except.error EmbedErr.providerRejected ∧
      (ingestSpec rejProvider [] "u" "f" ["c0", "c1", "c2", "c3", "c4"]).2 = [2] ∧
      (ingestSpec rejProvider [] "u" "f" ["c0", "c1", "c2", "c3", "c4"]).1.map
          (fun r => r.content) = ["c0", "c1", "c3", "c4"] :=
  ⟨rfl, rfl, rfl⟩

/-- Witness instantiating processFileChunks_aborts on the concrete
five-chunk document. -/
theorem processFileChunks_aborts_witness :
    processFileChunks rejProvider [] "u" "f" (["c0", "c1"] ++ "c2" :: ["c3", "c4"]) =
      Except.error EmbedErr.providerRejected :=
  processFileChunks_aborts rejProvider [] "u" "f" ["c0", "c1"] "c2" ["c3", "c4"]
    EmbedErr.providerRejected
    (by intro p hp; fin_cases hp <;> exact ⟨[1], rfl⟩) rfl

/-- C6 amended: getRelevantContext never surfaces a failure of the query
embedding call; the catch block of openai.ts lines 125 to 128 swallows any
error into an empty-string success. -/
theorem getRelevantContext_swallows (simText : EmbeddingRecord → String)
    (e : EmbedErr) (st : List EmbeddingRecord) (uid : String) :
    getRelevantContext simText (Except.error e) st uid = "" :=
  rfl

/-- C6 counterexample: with the single embedding call failing, the code
returns the empty string as a success while the specified retrieval fails
with the error surfaced. -/
theorem getRelevantContext_error_cex :
    getRelevantContext (fun _ => "") (Except.error EmbedErr.providerUnavailable) [] "u" = "" ∧
      retrieveContextSpec (fun _ => "") (Except.error EmbedErr.providerUnavailable) [] "u" =
        Except.error EmbedErr.providerUnavailable :=
  ⟨rfl, rfl⟩

/-- C7 amended: generateEmbedding performs exactly one provider call and
surfaces any error of that first attempt unchanged — no retry for either
error kind, and callers (the processFile chunk loop, getRelevantContext)
add no retry of their own. -/
theorem generateEmbedding_single_attempt (provider : Nat → Except EmbedErr (List Rat))
    (e : EmbedErr) (h : provider 0 = Except.error e) :
    generateEmbedding provider = Except.error e := by
  unfold generateEmbedding
  rw [h]

/-- C7 counterexample: against a provider that is unavailable on the first
attempt and would succeed on any retry, the code fails at once, while the
specified retry policy with three attempts succeeds. -/
theorem generateEmbedding_retry_cex :
    generateEmbedding flakyProvider = Except.error EmbedErr.providerUnavailable ∧
      retryEmbeddingSpec flakyProvider 3 0 = Except.ok [1] :=
  ⟨rfl, rfl⟩

/-- Witness instantiating generateEmbedding_single_attempt on a provider
failing with a rejection on the first attempt. -/
theorem generateEmbedding_single_attempt_witness :
    generateEmbedding (fun _ => Except.error EmbedErr.providerRejected) =
      Except.error EmbedErr.providerRejected :=
  generateEmbedding_single_attempt (fun _ => Except.error EmbedErr.providerRejected)
    EmbedErr.providerRejected rfl

/-- C9 amended: no zero-vector validation exists at put time.  A vector of
the schema dimension 1536 — its values unexamined, the all-zero vector
included — is inserted and returned with the vector stored unchanged; the
only put-time rejection is the dimension constraint of the vector(1536)
column, which fails the insert for a vector of any other length, all-zero
or not, with no record inserted. -/
theorem saveEmbedding_zero_unchecked (st : List EmbeddingRecord)
    (uid stype sid content : String) (emb : List Rat) :
    (emb.length = 1536 →
      saveEmbeddingChecked st uid stype sid content emb =
          Except.ok (saveEmbedding st uid stype sid content emb) ∧
        (saveEmbedding st uid stype sid content emb).2 =
          st ++ [(saveEmbedding st uid stype sid content emb).1] ∧
        (saveEmbedding st uid stype sid content emb).1.embedding = emb) ∧
      (emb.length ≠ 1536 →
        saveEmbeddingChecked st uid stype sid content emb =
          Except.error InsertErr.dimensionMismatch) := by
  constructor
  · intro h
    refine ⟨?_, rfl, rfl⟩
    unfold saveEmbeddingChecked
    rw [if_pos h]
  · intro h
    unfold saveEmbeddingChecked
    rw [if_neg h]

/-- C9 counterexample: the all-zero vector of the schema dimension 1536 is
not rejected at put time — the insert succeeds and a record holding the
zero vector is stored, since neither saveEmbedding (file.ts lines 427 to
444) nor the vector(1536) column constraint examines the vector values. -/
theorem saveEmbedding_zero_vector_cex :
    saveEmbeddingChecked [] "u" "file" "s" "txt" (List.replicate 1536 0) =
        Except.ok (saveEmbedding [] "u" "file" "s" "txt" (List.replicate 1536 0)) ∧
      (saveEmbedding [] "u" "file" "s" "txt" (List.replicate 1536 0)).2 =
        [(saveEmbedding [] "u" "file" "s" "txt" (List.replicate 1536 0)).1] ∧
      (saveEmbedding [] "u" "file" "s" "txt" (List.replicate 1536 0)).1.embedding =
        List.replicate 1536 0 := by
  refine ⟨?_, rfl, rfl⟩
  unfold saveEmbeddingChecked
  rw [if_pos (List.length_replicate 1536 0)]

/-- Witness instantiating saveEmbedding_zero_unchecked on the all-zero
vector of length 1536 (accepted) and on a two coordinate vector (rejected
by the dimension constraint). -/
theorem saveEmbedding_zero_unchecked_witness :
    saveEmbeddingChecked [] "u" "file" "s" "txt" (List.replicate 1536 0) =
        Except.ok (saveEmbedding [] "u" "file" "s" "txt" (List.replicate 1536 0)) ∧
      saveEmbeddingChecked [] "u" "file" "s" "txt" [0, 0] =
        Except.error InsertErr.dimensionMismatch :=
  ⟨((saveEmbedding_zero_unchecked [] "u" "file" "s" "txt" (List.replicate 1536 0)).1
      (List.length_replicate 1536 0)).1,
    (saveEmbedding_zero_unchecked [] "u" "file" "s" "txt" [0, 0]).2 (by decide)⟩

theorem head?_filter {α : Type} (p : α → Bool) :
    ∀ l : List α, (l.filter p).head? = l.find? p := by
  intro l
  induction l with
  | nil => rfl
  | cons a t ih =>
    by_cases h : p a = true
    · rw [List.filter_cons_of_pos h, List.find?_cons_of_pos t h]
      rfl
    · rw [List.filter_cons_of_neg (by simpa using h), List.find?_cons_of_neg t (by simpa using h)]
      exact ih

/-- C10: relationship-linking semantics of processTextForKnowledge.  The
created links are exactly those computed by matching the source and target
names against the fetched nodes by case-insensitive exact equality, choosing
the first matching node in list order for each endpoint, and silently
dropping any relationship for which either endpoint has no matching node —
no error is raised and nothing is added to the returned list for it. -/
theorem linkRelationships_spec (nodes : List KnowledgeNode) (rels : List KRelationship) :
    linkRelationships nodes rels = rels.filterMap (fun r =>
      match nodes.find? (fun n => lowerName n.name == lowerName r.source),
            nodes.find? (fun n => lowerName n.name == lowerName r.target) with
      | some s, some t => some (s, t, r)
      | _, _ => none) := by
  induction rels with
  | nil => rfl
  | cons r rest ih =>
    rw [List.filterMap_cons]
    unfold linkRelationships
    cases hs : nodes.filter (fun n => lowerName n.name == lowerName r.source) with
    | nil =>
      have hfs : nodes.find? (fun n => lowerName n.name == lowerName r.source) = none := by
        rw [← head?_filter, hs]
        rfl
      rw [hfs]
      exact ih
    | cons s srest =>
      have hfs : nodes.find? (fun n => lowerName n.name == lowerName r.source) = some s := by
        rw [← head?_filter, hs]
        rfl
      cases ht : nodes.filter (fun n => lowerName n.name == lowerName r.target) with
      | nil =>
        have hft : nodes.find? (fun n => lowerName n.name == lowerName r.target) = none := by
          rw [← head?_filter, ht]
          rfl
        rw [hfs, hft]
        exact ih
      | cons t trest =>
        have hft : nodes.find? (fun n => lowerName n.name == lowerName r.target) = some t := by
          rw [← head?_filter, ht]
          rfl
        rw [hfs, hft]
        rw [ih]
